import Mathlib

/-!
Verification of the GC9A01 direct-SPI display driver and rasterizer
found in this repository (DigitalMeters.ino, HelloWorld.ino, and the
smooth-gauge sketch).

The embedding models the byte traffic on the SPI bus as a list of events:
command bytes (sent with DC low), data bytes (sent with DC high), and
explicit delays.  Machine integers are modelled as `Nat`/`Int` with
explicit reductions mod 2^8/2^16 exactly where the C code truncates
(`uint8_t` parameters, `uint16_t` parameters, `int16_t` locals).
-/

/-- One observable event on the display bus: a command byte, a data byte,
or a call to `delay(ms)`. -/
inductive Bus where
  | cmd (b : ℕ)
  | data (b : ℕ)
  | delayMs (ms : ℕ)
deriving DecidableEq, Repr

/-- `uint16_t` conversion of a C `int` value. -/
def u16 (v : ℤ) : ℕ := (v % 65536).toNat

/-- `int16_t` conversion of a C `int` value (two's-complement wrap,
as implemented by the target compiler). -/
def wrap16 (v : ℤ) : ℤ := (v + 32768) % 65536 - 32768

/-- C `int` division by 2 (truncation toward zero), used for `err = dx / 2`. -/
def cdiv2 (v : ℤ) : ℤ := if v < 0 then -((-v) / 2) else v / 2

/-- `tft_send_cmd(uint8_t cmd)`: one byte with DC low.  The `% 256` is the
`uint8_t` parameter conversion. -/
def tft_send_cmd (c : ℕ) : List Bus := [Bus.cmd (c % 256)]

/-- `tft_send_data(uint8_t data)`: one byte with DC high.  The `% 256` is the
`uint8_t` parameter conversion. -/
def tft_send_data (d : ℕ) : List Bus := [Bus.data (d % 256)]

/-- Value of the C `int` expression `x + w - 1` reduced mod 2^16, for
`uint16_t` arguments `x`, `w`.  For every `x, w < 65536` the two bytes the
driver actually sends, `(uint8_t)((x + w - 1) >> 8)` and
`(uint8_t)((x + w - 1) & 0xFF)`, equal `addrEnd x w >>> 8 % 256` and
`addrEnd x w % 256` (including the `w = 0` case, where `x + w - 1`
is the `int` value `-1`). -/
def addrEnd (x w : ℕ) : ℕ := (x + w + 65535) % 65536

/-- `tft_set_addr_window(x, y, w, h)`: column window, row window, then the
memory-write command 0x2C. -/
def tft_set_addr_window (x y w h : ℕ) : List Bus :=
  tft_send_cmd 0x2A ++
    tft_send_data (x >>> 8) ++ tft_send_data (x % 256) ++
    tft_send_data (addrEnd x w >>> 8) ++ tft_send_data (addrEnd x w % 256) ++
  tft_send_cmd 0x2B ++
    tft_send_data (y >>> 8) ++ tft_send_data (y % 256) ++
    tft_send_data (addrEnd y h >>> 8) ++ tft_send_data (addrEnd y h % 256) ++
  tft_send_cmd 0x2C

/-- The pixel loop of `tft_fill_rect`: `n` iterations, each transferring the
high byte then the low byte of the color. -/
def pixelPairs : ℕ → ℕ → ℕ → List Bus
  | 0, _, _ => []
  | n + 1, hi, lo => Bus.data hi :: Bus.data lo :: pixelPairs n hi lo

/-- `tft_fill_rect(x, y, w, h, color)`: set the address window, then stream
`w*h` copies of the 2-byte color.  `color >>> 8 % 256` and `color % 256` are
the `uint8_t` locals `hi` and `lo`. -/
def tft_fill_rect (x y w h color : ℕ) : List Bus :=
  tft_set_addr_window x y w h ++ pixelPairs (w * h) (color >>> 8 % 256) (color % 256)

/-- `tft_draw_pixel(x, y, color)`: bounds check against 240x240, then a 1x1
fill. -/
def tft_draw_pixel (x y color : ℕ) : List Bus :=
  if 240 ≤ x ∨ 240 ≤ y then [] else tft_fill_rect x y 1 1 color

theorem pixelPairs_length (n hi lo : ℕ) : (pixelPairs n hi lo).length = 2 * n := by
  induction n with
  | zero => rfl
  | succ n ih => simp [pixelPairs, ih]; omega

theorem pixelPairs_add (m n hi lo : ℕ) :
    pixelPairs (m + n) hi lo = pixelPairs m hi lo ++ pixelPairs n hi lo := by
  induction m with
  | zero => simp [pixelPairs]
  | succ m ih => simp [pixelPairs, Nat.succ_add, ih]

/-- C1: for an in-bounds `fillRect(x, y, w, h, color)` the bus trace is:
column window set to `[x, x+w-1]`, row window set to `[y, y+h-1]` (each value
big-endian, and both high bytes are 0 because the panel is 240 wide), the
memory-write command 0x2C, and then exactly `w*h` two-byte pixel writes, each
the requested color with the high byte first. -/
theorem fillRect_trace_spec (x y w h c : ℕ) (hw : 1 ≤ w) (hh : 1 ≤ h)
    (hx : x + w ≤ 240) (hy : y + h ≤ 240) (hc : c < 65536) :
    tft_fill_rect x y w h c =
      [Bus.cmd 0x2A, Bus.data 0, Bus.data x, Bus.data 0, Bus.data (x + w - 1),
       Bus.cmd 0x2B, Bus.data 0, Bus.data y, Bus.data 0, Bus.data (y + h - 1),
       Bus.cmd 0x2C] ++ pixelPairs (w * h) (c >>> 8) (c % 256) ∧
    (pixelPairs (w * h) (c >>> 8) (c % 256)).length = 2 * (w * h) := by
  constructor
  · have hx' : x < 65536 := by omega
    have hy' : y < 65536 := by omega
    simp only [tft_fill_rect, tft_set_addr_window, tft_send_cmd, tft_send_data,
      addrEnd, Nat.shiftRight_eq_div_pow]
    have e1 : (x + w + 65535) % 65536 = x + w - 1 := by omega
    have e2 : (y + h + 65535) % 65536 = y + h - 1 := by omega
    rw [e1, e2]
    have : c / 2 ^ 8 % 256 = c / 2 ^ 8 := by omega
    rw [this]
    simp only [List.cons_append, List.nil_append, List.append_assoc]
    norm_num
    omega
  · exact pixelPairs_length _ _ _

/-- Concrete instance of `fillRect_trace_spec` at `(x,y,w,h,color) = (2,3,4,5,7)`. -/
theorem fillRect_trace_spec_witness :
    tft_fill_rect 2 3 4 5 7 =
      [Bus.cmd 0x2A, Bus.data 0, Bus.data 2, Bus.data 0, Bus.data (2 + 4 - 1),
       Bus.cmd 0x2B, Bus.data 0, Bus.data 3, Bus.data 0, Bus.data (3 + 5 - 1),
       Bus.cmd 0x2C] ++ pixelPairs (4 * 5) (7 >>> 8) (7 % 256) ∧
    (pixelPairs (4 * 5) (7 >>> 8) (7 % 256)).length = 2 * (4 * 5) :=
  fillRect_trace_spec 2 3 4 5 7 (by decide) (by decide) (by decide) (by decide)
    (by decide)

/-- Modelled from the spec: the GC9A01 controller state (spec §3 "Display
Surface" and "Controller State").  The physical chip is not part of the
repository, so its observable addressing/streaming behavior is embedded from
the spec's data model: a 240x240 grid of 16-bit pixels, addressed by an
active window programmed with 0x2A/0x2B; 0x2C resets the write pointer to
the window origin; pixel data then streams row-major through the window. -/
inductive CtlMode where
  | idle
  | colParam (acc : List ℕ)
  | rowParam (acc : List ℕ)
  | ramWrite (pendingHi : Option ℕ)
deriving DecidableEq, Repr

/-- Modelled from the spec: controller state — frame buffer, column/row
window, current write position, and command mode. -/
structure Ctl where
  fb : ℕ → ℕ → ℕ
  colS : ℕ
  colE : ℕ
  rowS : ℕ
  rowE : ℕ
  posX : ℕ
  posY : ℕ
  mode : CtlMode

/-- Modelled from the spec: accept one 16-bit pixel during a memory write and
advance the write pointer row-major through the active window, wrapping back
to the window origin after the last pixel. -/
def ctlWritePx (s : Ctl) (color : ℕ) : Ctl :=
  let fb' := fun i j => if i = s.posX ∧ j = s.posY then color else s.fb i j
  if s.posX < s.colE then
    { s with fb := fb', posX := s.posX + 1, mode := CtlMode.ramWrite none }
  else if s.posY < s.rowE then
    { s with fb := fb', posX := s.colS, posY := s.posY + 1,
             mode := CtlMode.ramWrite none }
  else
    { s with fb := fb', posX := s.colS, posY := s.rowS,
             mode := CtlMode.ramWrite none }

/-- Modelled from the spec: one bus event observed by the controller. -/
def ctlStep (s : Ctl) (b : Bus) : Ctl :=
  match b with
  | Bus.delayMs _ => s
  | Bus.cmd c =>
    if c = 0x2A then { s with mode := CtlMode.colParam [] }
    else if c = 0x2B then { s with mode := CtlMode.rowParam [] }
    else if c = 0x2C then
      { s with posX := s.colS, posY := s.rowS, mode := CtlMode.ramWrite none }
    else { s with mode := CtlMode.idle }
  | Bus.data d =>
    match s.mode with
    | CtlMode.idle => s
    | CtlMode.colParam acc =>
      match acc with
      | [a, b1, c1] =>
        { s with colS := 256 * a + b1, colE := 256 * c1 + d, mode := CtlMode.idle }
      | _ => { s with mode := CtlMode.colParam (acc ++ [d]) }
    | CtlMode.rowParam acc =>
      match acc with
      | [a, b1, c1] =>
        { s with rowS := 256 * a + b1, rowE := 256 * c1 + d, mode := CtlMode.idle }
      | _ => { s with mode := CtlMode.rowParam (acc ++ [d]) }
    | CtlMode.ramWrite none => { s with mode := CtlMode.ramWrite (some d) }
    | CtlMode.ramWrite (some hi) => ctlWritePx s (256 * hi + d)

/-- Modelled from the spec: run the controller over a bus trace. -/
def ctlRun (s : Ctl) (tr : List Bus) : Ctl := tr.foldl ctlStep s

theorem ctlRun_append (s : Ctl) (t1 t2 : List Bus) :
    ctlRun s (t1 ++ t2) = ctlRun (ctlRun s t1) t2 :=
  List.foldl_append ..

/-- Streaming one row of `m` pixels of a fill: covers columns `px..x+w-1` of
row `py` and leaves the pointer at the start of the next row (or back at the
window origin after the last row). -/
theorem ctlRun_row (x y w h hi lo py : ℕ) (hh : 1 ≤ h)
    (_hpy1 : y ≤ py) (hpy2 : py < y + h) :
    ∀ m px fb, x ≤ px → 1 ≤ m → px + m = x + w →
    ctlRun ⟨fb, x, x + w - 1, y, y + h - 1, px, py, CtlMode.ramWrite none⟩
        (pixelPairs m hi lo) =
      ⟨fun i j => if px ≤ i ∧ i < x + w ∧ j = py then 256 * hi + lo else fb i j,
       x, x + w - 1, y, y + h - 1, x,
       if py + 1 < y + h then py + 1 else y, CtlMode.ramWrite none⟩ := by
  intro m
  induction m with
  | zero => intro px fb _ hm; omega
  | succ m ih =>
    intro px fb hpx _ hpxm
    rw [pixelPairs]
    show ctlRun (ctlStep (ctlStep _ (Bus.data hi)) (Bus.data lo)) (pixelPairs m hi lo) = _
    simp only [ctlStep, ctlWritePx]
    rcases Nat.eq_zero_or_pos m with hm0 | hm1
    · subst hm0
      have hpx' : px = x + w - 1 := by omega
      have hnot : ¬ px < x + w - 1 := by omega
      simp only [hnot, if_false]
      by_cases hlast : py < y + h - 1
      · simp only [if_pos hlast, pixelPairs, ctlRun, List.foldl_nil]
        have : py + 1 < y + h := by omega
        simp only [this, if_pos]
        congr 1
        funext i j
        split_ifs <;> first | rfl | omega
      · simp only [if_neg hlast, pixelPairs, ctlRun, List.foldl_nil]
        have : ¬ py + 1 < y + h := by omega
        simp only [this, if_neg, if_false]
        congr 1
        funext i j
        split_ifs <;> first | rfl | omega
    · have hlt : px < x + w - 1 := by omega
      simp only [hlt, if_pos]
      rw [ih (px + 1) _ (by omega) hm1 (by omega)]
      congr 1
      funext i j
      split_ifs <;> first | rfl | omega

/-- Streaming `rows` full rows of a fill: covers rows `py..y+h-1` of the
window and leaves the pointer back at the window origin. -/
theorem ctlRun_rect (x y w h hi lo : ℕ) (hw : 1 ≤ w) (hh : 1 ≤ h) :
    ∀ rows py fb, 1 ≤ rows → y ≤ py → py + rows = y + h →
    ctlRun ⟨fb, x, x + w - 1, y, y + h - 1, x, py, CtlMode.ramWrite none⟩
        (pixelPairs (w * rows) hi lo) =
      ⟨fun i j =>
         if x ≤ i ∧ i < x + w ∧ py ≤ j ∧ j < y + h then 256 * hi + lo else fb i j,
       x, x + w - 1, y, y + h - 1, x, y, CtlMode.ramWrite none⟩ := by
  intro rows
  induction rows with
  | zero => intro py fb h1; omega
  | succ rows ih =>
    intro py fb _ hpy hrows
    rcases Nat.eq_zero_or_pos rows with hr0 | hr1
    · subst hr0
      have hpy' : py = y + h - 1 := by omega
      rw [Nat.mul_one]
      rw [ctlRun_row x y w h hi lo py hh hpy (by omega) w x fb (le_refl x) hw
        (by omega)]
      have : ¬ py + 1 < y + h := by omega
      simp only [this, if_neg, if_false]
      congr 1
      funext i j
      split_ifs <;> first | rfl | omega
    · have hsplit : w * (rows + 1) = w + w * rows := by ring
      rw [hsplit, pixelPairs_add, ctlRun_append]
      rw [ctlRun_row x y w h hi lo py hh hpy (by omega) w x fb (le_refl x) hw
        (by omega)]
      have hlt : py + 1 < y + h := by omega
      simp only [hlt, if_pos]
      rw [ih (py + 1) _ hr1 (by omega) (by omega)]
      congr 1
      funext i j
      split_ifs <;> first | rfl | omega

/-- Running a full in-bounds `tft_fill_rect` from any controller state:
the window is programmed to the rectangle, every pixel of the rectangle is
overwritten with the color, everything else is untouched, and the pointer
ends back at the window origin. -/
theorem ctlRun_fillRect (s : Ctl) (x y w h c : ℕ) (hw : 1 ≤ w) (hh : 1 ≤ h)
    (hx : x + w ≤ 240) (hy : y + h ≤ 240) (hc : c < 65536) :
    ctlRun s (tft_fill_rect x y w h c) =
      ⟨fun i j =>
         if x ≤ i ∧ i < x + w ∧ y ≤ j ∧ j < y + h then c else s.fb i j,
       x, x + w - 1, y, y + h - 1, x, y, CtlMode.ramWrite none⟩ := by
  have hx' : x < 65536 := by omega
  have hy' : y < 65536 := by omega
  rw [tft_fill_rect, ctlRun_append]
  have e1 : 256 * (x >>> 8 % 256) + x % 256 = x := by
    rw [Nat.shiftRight_eq_div_pow]; omega
  have e2 : 256 * (addrEnd x w >>> 8 % 256) + addrEnd x w % 256 = x + w - 1 := by
    rw [Nat.shiftRight_eq_div_pow]; unfold addrEnd; omega
  have e3 : 256 * (y >>> 8 % 256) + y % 256 = y := by
    rw [Nat.shiftRight_eq_div_pow]; omega
  have e4 : 256 * (addrEnd y h >>> 8 % 256) + addrEnd y h % 256 = y + h - 1 := by
    rw [Nat.shiftRight_eq_div_pow]; unfold addrEnd; omega
  have haddr : ctlRun s (tft_set_addr_window x y w h) =
      ⟨s.fb, x, x + w - 1, y, y + h - 1, x, y, CtlMode.ramWrite none⟩ := by
    simp only [tft_set_addr_window, tft_send_cmd, tft_send_data, ctlRun,
      List.append_assoc, List.cons_append, List.nil_append, List.foldl_cons,
      List.foldl_nil, ctlStep]
    norm_num
    exact ⟨e1, e2, e3, e4, e1, e3⟩
  rw [haddr]
  rw [ctlRun_rect x y w h (c >>> 8 % 256) (c % 256) hw hh h y s.fb hh
    (le_refl y) rfl]
  have : 256 * (c >>> 8 % 256) + c % 256 = c := by
    rw [Nat.shiftRight_eq_div_pow]; omega
  rw [this]

/-- C3: `tft_draw_pixel` with `x ≥ 240` or `y ≥ 240` emits no bus event at
all and leaves any controller state unchanged; for in-bounds coordinates it
is exactly `tft_fill_rect x y 1 1 color`. -/
theorem drawPixel_clip_spec (x y c : ℕ) :
    (240 ≤ x ∨ 240 ≤ y →
      tft_draw_pixel x y c = [] ∧ ∀ s : Ctl, ctlRun s (tft_draw_pixel x y c) = s) ∧
    (x < 240 → y < 240 → tft_draw_pixel x y c = tft_fill_rect x y 1 1 c) := by
  constructor
  · intro hout
    have hnil : tft_draw_pixel x y c = [] := by
      simp only [tft_draw_pixel, if_pos hout]
    exact ⟨hnil, fun s => by rw [hnil]; rfl⟩
  · intro h1 h2
    have : ¬ (240 ≤ x ∨ 240 ≤ y) := by omega
    simp only [tft_draw_pixel, if_neg this]

/-- Concrete instance of `drawPixel_clip_spec`: the out-of-range pixel
`(250, 0)` emits nothing, and the in-bounds pixel `(1, 2)` is a 1x1 fill. -/
theorem drawPixel_clip_spec_witness :
    (tft_draw_pixel 250 0 5 = [] ∧ ∀ s : Ctl, ctlRun s (tft_draw_pixel 250 0 5) = s) ∧
    tft_draw_pixel 1 2 3 = tft_fill_rect 1 2 1 1 3 :=
  ⟨(drawPixel_clip_spec 250 0 5).1 (Or.inl (by decide)),
   (drawPixel_clip_spec 1 2 3).2 (by decide) (by decide)⟩

/-- The bus trace emitted by `initDisplay()` in DigitalMeters.ino: the
stabilization delay, the abbreviated GC9A01 register sequence, sleep-out
(0x11) + 120 ms, display-on (0x29) + 20 ms. -/
def initDisplayTrace : List Bus :=
  [Bus.delayMs 200] ++
  tft_send_cmd 0xEF ++
  tft_send_cmd 0xEB ++ tft_send_data 0x14 ++
  tft_send_cmd 0xFE ++ tft_send_cmd 0xEF ++
  tft_send_cmd 0x3A ++ tft_send_data 0x05 ++
  tft_send_cmd 0x11 ++ [Bus.delayMs 120] ++
  tft_send_cmd 0x29 ++ [Bus.delayMs 20]

theorem ctlRun_initDisplay (s : Ctl) :
    ctlRun s initDisplayTrace = { s with mode := CtlMode.idle } := by
  simp only [initDisplayTrace, tft_send_cmd, tft_send_data, ctlRun,
    List.append_assoc, List.cons_append, List.nil_append, List.foldl_cons,
    List.foldl_nil, ctlStep]
  norm_num

/-- The C2 end-to-end scenario: controller init, then a full-screen black
fill, then a full-screen white fill. -/
def c2Scenario : List Bus :=
  initDisplayTrace ++ tft_fill_rect 0 0 240 240 0x0000 ++
    tft_fill_rect 0 0 240 240 0xFFFF

/-- C2: the scenario's bus trace is the init sequence, then an address-window
setup followed by exactly 240*240 black (0x00 0x00) two-byte pixel writes,
then an address-window setup followed by exactly 240*240 white (0xFF 0xFF)
two-byte pixel writes, in that order; and from any starting controller state
the final 240x240 surface is entirely white. -/
theorem fillScreen_scenario (s0 : Ctl) :
    (c2Scenario = initDisplayTrace ++
        (tft_set_addr_window 0 0 240 240 ++ pixelPairs (240 * 240) 0x00 0x00) ++
        (tft_set_addr_window 0 0 240 240 ++ pixelPairs (240 * 240) 0xFF 0xFF)) ∧
    (∀ i j, i < 240 → j < 240 → (ctlRun s0 c2Scenario).fb i j = 0xFFFF) := by
  constructor
  · simp only [c2Scenario, tft_fill_rect, Nat.shiftRight_eq_div_pow]
  · intro i j hi hj
    rw [c2Scenario, ctlRun_append, ctlRun_append, ctlRun_initDisplay]
    rw [ctlRun_fillRect _ 0 0 240 240 0x0000 (by omega) (by omega) (by omega)
      (by omega) (by omega)]
    rw [ctlRun_fillRect _ 0 0 240 240 0xFFFF (by omega) (by omega) (by omega)
      (by omega) (by omega)]
    have : 0 ≤ i ∧ i < 0 + 240 ∧ 0 ≤ j ∧ j < 0 + 240 := by omega
    simp only [this, if_pos, and_self]

/-- Concrete instance of `fillScreen_scenario`: starting from an all-zero
surface in idle mode, pixel (5, 7) ends white. -/
theorem fillScreen_scenario_witness :
    (ctlRun ⟨fun _ _ => 0, 0, 0, 0, 0, 0, 0, CtlMode.idle⟩ c2Scenario).fb 5 7 =
      0xFFFF :=
  (fillScreen_scenario ⟨fun _ _ => 0, 0, 0, 0, 0, 0, 0, CtlMode.idle⟩).2 5 7
    (by decide) (by decide)

/-- The loop of `tft_draw_line` after normalization: `n` remaining
iterations of `for (; x0 <= x1; x0++)`.  Coordinates live in `uint16_t`
(hence the `% 65536` on the increments, and the decrement written as
`+ 65535 mod 2^16`); the error accumulator is an `int16_t`, hence `wrap16`
after each compound assignment.  Each iteration plots `(y, x)` when the
line is steep and `(x, y)` otherwise, exactly as the calls to
`tft_draw_pixel` do. -/
def lineLoop (steep up : Bool) (dx dy : ℤ) : ℕ → ℕ → ℕ → ℤ → List (ℕ × ℕ)
  | 0, _, _, _ => []
  | n + 1, x, y, err =>
    (if steep then (y, x) else (x, y)) ::
      (let err1 := wrap16 (err - dy)
       if err1 < 0 then
         lineLoop steep up dx dy n ((x + 1) % 65536)
           (if up then (y + 1) % 65536 else (y + 65535) % 65536)
           (wrap16 (err1 + dx))
       else lineLoop steep up dx dy n ((x + 1) % 65536) y err1)

/-- `tft_draw_line` after the steep transpose and the endpoint swap:
computes `dx`, `dy`, `ystep` and `err` (all `int16_t`) and runs the loop
`a1 - a0 + 1` times. -/
def lineRun (steep : Bool) (a0 b0 a1 b1 : ℕ) : List (ℕ × ℕ) :=
  lineLoop steep (decide (b0 < b1)) (wrap16 ((a1 : ℤ) - a0))
    (wrap16 |(b1 : ℤ) - b0|) (a1 + 1 - a0) a0 b0 (cdiv2 (wrap16 ((a1 : ℤ) - a0)))

/-- The endpoint swap of `tft_draw_line`: `if (x0 > x1) swap`. -/
def lineFrom (steep : Bool) (a0 b0 a1 b1 : ℕ) : List (ℕ × ℕ) :=
  if a1 < a0 then lineRun steep a1 b1 a0 b0 else lineRun steep a0 b0 a1 b1

/-- The pixels plotted by `tft_draw_line(x0, y0, x1, y1, _)`, in plot order,
as the coordinate pairs passed to `tft_draw_pixel`.  `steep` is
`abs(y1-y0) > abs(x1-x0)`; when steep the coordinates are transposed. -/
def tft_draw_line_plots (x0 y0 x1 y1 : ℕ) : List (ℕ × ℕ) :=
  if |(y1 : ℤ) - y0| > |(x1 : ℤ) - x0| then lineFrom true y0 x0 y1 x1
  else lineFrom false x0 y0 x1 y1

/-- `tft_draw_line(x0, y0, x1, y1, color)`: the bus trace, one (possibly
clipped) `tft_draw_pixel` per plotted coordinate pair. -/
def tft_draw_line (x0 y0 x1 y1 color : ℕ) : List Bus :=
  (tft_draw_line_plots x0 y0 x1 y1).flatMap fun p => tft_draw_pixel p.1 p.2 color

theorem lineFrom_symm (steep : Bool) (a0 b0 a1 b1 : ℕ) (hside : a0 = a1 → b0 = b1) :
    lineFrom steep a0 b0 a1 b1 = lineFrom steep a1 b1 a0 b0 := by
  unfold lineFrom
  rcases Nat.lt_trichotomy a0 a1 with h | h | h
  · rw [if_neg (by omega), if_pos h]
  · have hb := hside h
    subst h; subst hb
    rfl
  · rw [if_pos h, if_neg (by omega)]

/-- C5: `tft_draw_line` is symmetric in its endpoints — swapping the two
endpoints yields the identical bus trace, hence the identical pixel set
(stated for all `uint16_t` arguments; in particular for endpoints inside
the 240x240 panel). -/
theorem drawLine_symm (x0 y0 x1 y1 c : ℕ) :
    tft_draw_line x0 y0 x1 y1 c = tft_draw_line x1 y1 x0 y0 c ∧
    tft_draw_line_plots x0 y0 x1 y1 = tft_draw_line_plots x1 y1 x0 y0 := by
  have hplots : tft_draw_line_plots x0 y0 x1 y1 = tft_draw_line_plots x1 y1 x0 y0 := by
    unfold tft_draw_line_plots
    have habs1 : |(y0 : ℤ) - y1| = |(y1 : ℤ) - y0| := abs_sub_comm _ _
    have habs2 : |(x0 : ℤ) - x1| = |(x1 : ℤ) - x0| := abs_sub_comm _ _
    rw [habs1, habs2]
    by_cases hst : |(y1 : ℤ) - y0| > |(x1 : ℤ) - x0|
    · rw [if_pos hst, if_pos hst]
      exact lineFrom_symm true y0 x0 y1 x1 (by
        intro h
        exfalso
        have hy : (y0 : ℤ) = y1 := by exact_mod_cast h
        rw [hy, sub_self, abs_zero] at hst
        exact (abs_nonneg _).not_lt hst)
    · rw [if_neg hst, if_neg hst]
      exact lineFrom_symm false x0 y0 x1 y1 (by
        intro h
        have hx : (x0 : ℤ) = x1 := by exact_mod_cast h
        push_neg at hst
        rw [hx, sub_self, abs_zero] at hst
        have h0 : (y1 : ℤ) - y0 = 0 := abs_eq_zero.mp (le_antisymm hst (abs_nonneg _))
        have : (y0 : ℤ) = y1 := by omega
        exact_mod_cast this)
  exact ⟨by unfold tft_draw_line; rw [hplots], hplots⟩

theorem wrap16_eq (v : ℤ) (h1 : -32768 ≤ v) (h2 : v < 32768) : wrap16 v = v := by
  unfold wrap16; omega

/-- The standard integer-error-accumulator Bresenham loop, written from the
spec's words over unbounded integers: walk `x` upward, subtract `dy` from
the error each step, and step `y` by `±1` exactly when the error crosses
zero (refilling it with `dx`). -/
def bresLoop (steep : Bool) (ystep dx dy : ℤ) : ℕ → ℤ → ℤ → ℤ → List (ℤ × ℤ)
  | 0, _, _, _ => []
  | n + 1, x, y, err =>
    (if steep then (y, x) else (x, y)) ::
      (let err1 := err - dy
       if err1 < 0 then bresLoop steep ystep dx dy n (x + 1) (y + ystep) (err1 + dx)
       else bresLoop steep ystep dx dy n (x + 1) y err1)

/-- Spec-side Bresenham after normalization (`a0 ≤ a1` expected). -/
def bresRun (steep : Bool) (a0 b0 a1 b1 : ℤ) : List (ℤ × ℤ) :=
  bresLoop steep (if b0 < b1 then 1 else -1) (a1 - a0) |b1 - b0|
    (a1 - a0 + 1).toNat a0 b0 ((a1 - a0) / 2)

/-- Spec-side octant normalization: swap endpoints so the walk is left to
right. -/
def bresFrom (steep : Bool) (a0 b0 a1 b1 : ℤ) : List (ℤ × ℤ) :=
  if a1 < a0 then bresRun steep a1 b1 a0 b0 else bresRun steep a0 b0 a1 b1

/-- The standard integer-error-accumulator Bresenham formulation from the
spec: transpose when steep, swap so `x0 ≤ x1`, then walk. -/
def bresenham (x0 y0 x1 y1 : ℤ) : List (ℤ × ℤ) :=
  if |y1 - y0| > |x1 - x0| then bresFrom true y0 x0 y1 x1
  else bresFrom false x0 y0 x1 y1

/-- The machine-integer loop of `tft_draw_line` agrees with the ideal
Bresenham loop as long as the error stays in `[0, dx]`, the walk stays well
inside `uint16_t` range, and the remaining y-distance to the target `ytgt`
can absorb all remaining y-steps (the classical Bresenham invariant).  The
`y` wrap-arounds of the `uint16_t` arithmetic are then provably never
exercised before the final iteration. -/
theorem lineLoop_eq_bresLoop (steep up : Bool) (dx dy ytgt : ℤ)
    (hdy0 : 0 ≤ dy) (hdydx : dy ≤ dx) (hdx : dx ≤ 500)
    (hyt0 : 0 ≤ ytgt) (hyt1 : ytgt ≤ 500) :
    ∀ (n : ℕ) (x y : ℕ) (err : ℤ),
      x + n ≤ 1000 → y ≤ 500 → 0 ≤ err → err ≤ dx →
      (up = true → (y : ℤ) ≤ ytgt ∧ ((n : ℤ) - 1) * dy - err ≤ dx * (ytgt - y)) →
      (up = false → ytgt ≤ (y : ℤ) ∧ ((n : ℤ) - 1) * dy - err ≤ dx * ((y : ℤ) - ytgt)) →
      (lineLoop steep up dx dy n x y err).map (fun p => ((p.1 : ℤ), (p.2 : ℤ))) =
        bresLoop steep (if up then 1 else -1) dx dy n (x : ℤ) (y : ℤ) err := by
  intro n
  induction n with
  | zero =>
    intro x y err _ _ _ _ _ _
    simp [lineLoop, bresLoop]
  | succ n ih =>
    intro x y err hxn hy herr0 herrdx hup hdown
    have hw1 : wrap16 (err - dy) = err - dy := wrap16_eq _ (by omega) (by omega)
    simp only [lineLoop, bresLoop, hw1, List.map_cons]
    refine congrArg₂ List.cons (by cases steep <;> rfl) ?_
    have hx1 : (x + 1) % 65536 = x + 1 := by omega
    have hxc : ((x + 1 : ℕ) : ℤ) = (x : ℤ) + 1 := by push_cast; ring
    by_cases hc : err - dy < 0
    · rw [if_pos hc, if_pos hc]
      have hw2 : wrap16 (err - dy + dx) = err - dy + dx := wrap16_eq _ (by omega) (by omega)
      rw [hw2]
      rcases Nat.eq_zero_or_pos n with hn0 | hn1
      · subst hn0
        simp [lineLoop, bresLoop]
      · have hn1' : (1 : ℤ) ≤ (n : ℤ) := by exact_mod_cast hn1
        cases up
        · -- stepping down: the uint16 decrement never wraps here
          obtain ⟨hty, hinv⟩ := hdown rfl
          push_cast at hinv
          have hygt : ytgt < (y : ℤ) := by
            by_contra hle
            push_neg at hle
            have h1 : dx * ((y : ℤ) - ytgt) ≤ 0 :=
              mul_nonpos_of_nonneg_of_nonpos (by omega) (by omega)
            have h2 : (0 : ℤ) ≤ ((n : ℤ) - 1) * dy := mul_nonneg (by omega) hdy0
            nlinarith [hinv, h2, h1]
          have hy1 : 1 ≤ y := by omega
          have hym : (y + 65535) % 65536 = y - 1 := by omega
          have hyc : ((y - 1 : ℕ) : ℤ) = (y : ℤ) - 1 := by omega
          have ihh := ih (x + 1) (y - 1) (err - dy + dx) (by omega) (by omega)
            (by omega) (by omega) (fun h => Bool.noConfusion h)
            (fun _ => by
              refine ⟨by rw [hyc]; omega, ?_⟩
              rw [hyc]
              nlinarith [hinv])
          rw [hyc, hxc, if_neg (show ¬(false = true) by decide)] at ihh
          simp only [Bool.false_eq_true, if_false]
          rw [hx1, hym, show (y : ℤ) + -1 = (y : ℤ) - 1 by ring]
          exact ihh
        · -- stepping up: the uint16 increment never wraps here
          obtain ⟨hty, hinv⟩ := hup rfl
          push_cast at hinv
          have hygt : (y : ℤ) < ytgt := by
            by_contra hle
            push_neg at hle
            have h1 : dx * (ytgt - (y : ℤ)) ≤ 0 :=
              mul_nonpos_of_nonneg_of_nonpos (by omega) (by omega)
            have h2 : (0 : ℤ) ≤ ((n : ℤ) - 1) * dy := mul_nonneg (by omega) hdy0
            nlinarith [hinv, h2, h1]
          have hym : (y + 1) % 65536 = y + 1 := by omega
          have hyc : ((y + 1 : ℕ) : ℤ) = (y : ℤ) + 1 := by push_cast; ring
          have ihh := ih (x + 1) (y + 1) (err - dy + dx) (by omega) (by omega)
            (by omega) (by omega)
            (fun _ => by
              refine ⟨by rw [hyc]; omega, ?_⟩
              rw [hyc]
              nlinarith [hinv])
            (fun h => Bool.noConfusion h)
          rw [hyc, hxc, if_pos rfl] at ihh
          simp only [if_true]
          rw [hx1, hym]
          exact ihh
    · rw [if_neg hc, if_neg hc]
      have ihh := ih (x + 1) y (err - dy) (by omega) hy (by omega) (by omega)
        (fun h => by
          obtain ⟨hty, hinv⟩ := hup h
          push_cast at hinv
          exact ⟨hty, by nlinarith [hinv]⟩)
        (fun h => by
          obtain ⟨hty, hinv⟩ := hdown h
          push_cast at hinv
          exact ⟨hty, by nlinarith [hinv]⟩)
      rw [hxc] at ihh
      rw [hx1]
      exact ihh

theorem lineRun_eq_bresRun (steep : Bool) (a0 b0 a1 b1 : ℕ)
    (hle : a0 ≤ a1) (h1 : a1 ≤ 239) (h2 : b0 ≤ 239) (h3 : b1 ≤ 239)
    (hsteep : |(b1 : ℤ) - b0| ≤ (a1 : ℤ) - a0) :
    (lineRun steep a0 b0 a1 b1).map (fun p => ((p.1 : ℤ), (p.2 : ℤ))) =
      bresRun steep a0 b0 a1 b1 := by
  unfold lineRun bresRun
  have habs : |(b1 : ℤ) - b0| ≤ 239 := abs_le.mpr ⟨by omega, by omega⟩
  have hdxw : wrap16 ((a1 : ℤ) - a0) = (a1 : ℤ) - a0 := wrap16_eq _ (by omega) (by omega)
  have hdyw : wrap16 |(b1 : ℤ) - b0| = |(b1 : ℤ) - b0| :=
    wrap16_eq _ (by have := abs_nonneg ((b1 : ℤ) - b0); omega) (by omega)
  have hdiv : cdiv2 ((a1 : ℤ) - a0) = ((a1 : ℤ) - a0) / 2 := by
    unfold cdiv2
    rw [if_neg (by omega)]
  have hcount : ((a1 : ℤ) - a0 + 1).toNat = a1 + 1 - a0 := by omega
  rw [hdxw, hdyw, hdiv, hcount]
  have herr0 : 0 ≤ ((a1 : ℤ) - a0) / 2 := by omega
  have herrdx : ((a1 : ℤ) - a0) / 2 ≤ (a1 : ℤ) - a0 := by omega
  by_cases hb : b0 < b1
  · have hb' : (b0 : ℤ) < b1 := by exact_mod_cast hb
    have hdyeq : |(b1 : ℤ) - b0| = (b1 : ℤ) - b0 := abs_of_nonneg (by omega)
    rw [if_pos hb', show (decide (b0 < b1)) = true by simp [hb]]
    have := lineLoop_eq_bresLoop steep true ((a1 : ℤ) - a0) |(b1 : ℤ) - b0| (b1 : ℤ)
      (abs_nonneg _) hsteep (by omega) (by omega) (by omega)
      (a1 + 1 - a0) a0 b0 (((a1 : ℤ) - a0) / 2) (by omega) (by omega) herr0 herrdx
      (fun _ => by
        refine ⟨by omega, ?_⟩
        rw [hdyeq]
        have hcc : ((a1 + 1 - a0 : ℕ) : ℤ) - 1 = (a1 : ℤ) - a0 := by omega
        rw [hcc]
        nlinarith [herr0])
      (fun h => Bool.noConfusion h)
    rw [if_pos rfl] at this
    exact this
  · have hb' : ¬ (b0 : ℤ) < b1 := by exact_mod_cast hb
    have hdyeq : |(b1 : ℤ) - b0| = (b0 : ℤ) - b1 := by
      rw [abs_sub_comm]
      exact abs_of_nonneg (by omega)
    rw [if_neg hb', show (decide (b0 < b1)) = false by simp [hb]]
    have := lineLoop_eq_bresLoop steep false ((a1 : ℤ) - a0) |(b1 : ℤ) - b0| (b1 : ℤ)
      (abs_nonneg _) hsteep (by omega) (by omega) (by omega)
      (a1 + 1 - a0) a0 b0 (((a1 : ℤ) - a0) / 2) (by omega) (by omega) herr0 herrdx
      (fun h => Bool.noConfusion h)
      (fun _ => by
        refine ⟨by omega, ?_⟩
        rw [hdyeq]
        have hcc : ((a1 + 1 - a0 : ℕ) : ℤ) - 1 = (a1 : ℤ) - a0 := by omega
        rw [hcc]
        nlinarith [herr0])
    rw [if_neg (show ¬(false = true) by decide)] at this
    exact this

theorem lineFrom_eq_bresFrom (steep : Bool) (a0 b0 a1 b1 : ℕ)
    (ha0 : a0 ≤ 239) (hb0 : b0 ≤ 239) (ha1 : a1 ≤ 239) (hb1 : b1 ≤ 239)
    (hsteep : |(b1 : ℤ) - b0| ≤ |(a1 : ℤ) - a0|) :
    (lineFrom steep a0 b0 a1 b1).map (fun p => ((p.1 : ℤ), (p.2 : ℤ))) =
      bresFrom steep a0 b0 a1 b1 := by
  unfold lineFrom bresFrom
  by_cases hlt : a1 < a0
  · have hlt' : (a1 : ℤ) < a0 := by exact_mod_cast hlt
    rw [if_pos hlt, if_pos hlt']
    refine lineRun_eq_bresRun steep a1 b1 a0 b0 (by omega) ha0 hb1 hb0 ?_
    calc |(b0 : ℤ) - b1| = |(b1 : ℤ) - b0| := abs_sub_comm _ _
    _ ≤ |(a1 : ℤ) - a0| := hsteep
    _ = |(a0 : ℤ) - a1| := abs_sub_comm _ _
    _ = (a0 : ℤ) - a1 := abs_of_nonneg (by omega)
  · have hlt' : ¬ (a1 : ℤ) < a0 := by exact_mod_cast hlt
    rw [if_neg hlt, if_neg hlt']
    refine lineRun_eq_bresRun steep a0 b0 a1 b1 (by omega) ha1 hb0 hb1 ?_
    calc |(b1 : ℤ) - b0| ≤ |(a1 : ℤ) - a0| := hsteep
    _ = (a1 : ℤ) - a0 := abs_of_nonneg (by omega)

/-- C4: for in-bounds endpoints, the pixel sequence plotted by
`tft_draw_line` is exactly the one produced by the standard
integer-error-accumulator Bresenham formulation (steep transpose, endpoint
swap so `x0 ≤ x1`, walk `x0..x1` stepping `y` by `±1` when the error
crosses zero) — in particular the two rasterize identical pixel sets. -/
theorem drawLine_bresenham (x0 y0 x1 y1 : ℕ)
    (hx0 : x0 ≤ 239) (hy0 : y0 ≤ 239) (hx1 : x1 ≤ 239) (hy1 : y1 ≤ 239) :
    (tft_draw_line_plots x0 y0 x1 y1).map (fun p => ((p.1 : ℤ), (p.2 : ℤ))) =
      bresenham x0 y0 x1 y1 := by
  unfold tft_draw_line_plots bresenham
  by_cases hst : |(y1 : ℤ) - y0| > |(x1 : ℤ) - x0|
  · rw [if_pos hst, if_pos hst]
    exact lineFrom_eq_bresFrom true y0 x0 y1 x1 hy0 hx0 hy1 hx1 (le_of_lt hst)
  · rw [if_neg hst, if_neg hst]
    exact lineFrom_eq_bresFrom false x0 y0 x1 y1 hx0 hy0 hx1 hy1 (by omega)

/-- Concrete instance of `drawLine_bresenham` on the spec's end-to-end
example line from (0,0) to (4,0). -/
theorem drawLine_bresenham_witness :
    (tft_draw_line_plots 0 0 4 0).map (fun p => ((p.1 : ℤ), (p.2 : ℤ))) =
      bresenham 0 0 4 0 :=
  drawLine_bresenham 0 0 4 0 (by decide) (by decide) (by decide) (by decide)

/-- The midpoint-circle loop of `tft_draw_circle`: while `x >= y`, plot the
8 symmetric offsets (in source order), then update `y`/`err` and `x`/`err`.
All three locals are C `int`s.  The loop is embedded with an explicit fuel
argument; `circleLoopF_fuel` shows any fuel of at least `x + 1 - y`
iterations computes the same list, so the embedding agrees with the
unbounded C loop. -/
def circleLoopF : ℕ → ℤ → ℤ → ℤ → List (ℤ × ℤ)
  | 0, _, _, _ => []
  | fuel + 1, x, y, err =>
    if y ≤ x then
      [(x, y), (y, x), (-y, x), (-x, y), (-x, -y), (-y, -x), (y, -x), (x, -y)] ++
        (let y' := if err ≤ 0 then y + 1 else y
         let err' := if err ≤ 0 then err + 2 * (y + 1) + 1 else err
         let x' := if 0 < err' then x - 1 else x
         let err'' := if 0 < err' then err' - (2 * (x - 1) + 1) else err'
         circleLoopF fuel x' y' err'')
    else []

theorem circleLoopF_stop (f : ℕ) (x y err : ℤ) (h : x < y) :
    circleLoopF f x y err = [] := by
  cases f with
  | zero => rfl
  | succ f => rw [circleLoopF, if_neg (by omega)]

theorem circleLoopF_fuel (f : ℕ) : ∀ (g : ℕ) (x y err : ℤ),
    (x + 1 - y).toNat ≤ f → (x + 1 - y).toNat ≤ g →
    circleLoopF f x y err = circleLoopF g x y err := by
  induction f with
  | zero =>
    intro g x y err hf _
    rw [show circleLoopF 0 x y err = [] from rfl, circleLoopF_stop g x y err (by omega)]
  | succ f ih =>
    intro g x y err hf hg
    by_cases hxy : y ≤ x
    · have hg1 : 1 ≤ g := by omega
      obtain ⟨g', rfl⟩ := Nat.exists_eq_add_of_le hg1
      rw [Nat.add_comm 1 g']
      simp only [circleLoopF, if_pos hxy]
      congr 1
      apply ih
      · split_ifs <;> omega
      · split_ifs <;> omega
    · rw [circleLoopF_stop _ x y err (by omega), circleLoopF_stop _ x y err (by omega)]

/-- The offsets from the center plotted by `tft_draw_circle` with the given
radius, in plot order: `int x = radius; int y = 0; int err = 0;` then the
midpoint loop. -/
def tft_draw_circle_offsets (radius : ℕ) : List (ℤ × ℤ) :=
  circleLoopF (radius + 2) radius 0 0

/-- The coordinate pairs passed to `tft_draw_pixel` by
`tft_draw_circle(x0, y0, radius, _)`: each C `int` coordinate `x0 ± x` /
`y0 ± y` is converted to the `uint16_t` parameter. -/
def tft_draw_circle_plots (cx cy r : ℕ) : List (ℕ × ℕ) :=
  (tft_draw_circle_offsets r).map fun p => (u16 ((cx : ℤ) + p.1), u16 ((cy : ℤ) + p.2))

/-- `tft_draw_circle(x0, y0, radius, color)`: the bus trace. -/
def tft_draw_circle (cx cy r color : ℕ) : List Bus :=
  (tft_draw_circle_plots cx cy r).flatMap fun p => tft_draw_pixel p.1 p.2 color

theorem circleLoopF_rot (fuel : ℕ) : ∀ (x y err : ℤ) (p : ℤ × ℤ),
    p ∈ circleLoopF fuel x y err → (-p.2, p.1) ∈ circleLoopF fuel x y err := by
  induction fuel with
  | zero => intro x y err p h; simp [circleLoopF] at h
  | succ n ih =>
    intro x y err p h
    rw [circleLoopF] at h ⊢
    by_cases hle : y ≤ x
    · simp only [if_pos hle, List.mem_append] at h ⊢
      rcases h with h | h
      · left
        simp only [List.mem_cons, List.not_mem_nil, or_false] at h ⊢
        rcases h with h | h | h | h | h | h | h | h <;> subst h <;> simp
      · right; exact ih _ _ _ _ h
    · simp [if_neg hle] at h

theorem circleLoopF_bounds (R : ℤ) (fuel : ℕ) : ∀ (x y err : ℤ) (p : ℤ × ℤ),
    0 ≤ y → x ≤ R → p ∈ circleLoopF fuel x y err →
    -R ≤ p.1 ∧ p.1 ≤ R ∧ -R ≤ p.2 ∧ p.2 ≤ R := by
  induction fuel with
  | zero => intro x y err p _ _ h; simp [circleLoopF] at h
  | succ n ih =>
    intro x y err p hy hx h
    rw [circleLoopF] at h
    by_cases hle : y ≤ x
    · simp only [if_pos hle, List.mem_append] at h
      rcases h with h | h
      · simp only [List.mem_cons, List.not_mem_nil, or_false] at h
        rcases h with h | h | h | h | h | h | h | h <;> subst h <;>
          refine ⟨by simp; omega, by simp; omega, by simp; omega, by simp; omega⟩
      · refine ih _ _ _ p ?_ ?_ h
        · split_ifs <;> omega
        · split_ifs <;> omega
    · simp [if_neg hle] at h

theorem u16_cast (v : ℤ) (h0 : 0 ≤ v) (h1 : v < 65536) : ((u16 v : ℕ) : ℤ) = v := by
  unfold u16; omega

/-- C6: when the whole circle fits in the panel, the pixel set plotted by
`tft_draw_circle` is closed under the 90-degree rotation
`(cx + a, cy + b) ↦ (cx - b, cy + a)` about the center. -/
theorem drawCircle_rotation (cx cy r : ℕ) (h1 : r ≤ cx) (h2 : cx + r ≤ 239)
    (h3 : r ≤ cy) (h4 : cy + r ≤ 239) (a b : ℤ)
    (hmem : ((cx : ℤ) + a, (cy : ℤ) + b) ∈
      (tft_draw_circle_plots cx cy r).map (fun p => ((p.1 : ℤ), (p.2 : ℤ)))) :
    ((cx : ℤ) - b, (cy : ℤ) + a) ∈
      (tft_draw_circle_plots cx cy r).map (fun p => ((p.1 : ℤ), (p.2 : ℤ))) := by
  unfold tft_draw_circle_plots at hmem ⊢
  rw [List.map_map] at hmem ⊢
  rw [List.mem_map] at hmem
  obtain ⟨q, hq, hqe⟩ := hmem
  obtain ⟨hb1, hb2, hb3, hb4⟩ :=
    circleLoopF_bounds r _ _ _ _ q (le_refl 0) (le_refl (r : ℤ)) hq
  simp only [Function.comp] at hqe
  have hc1 : ((u16 ((cx : ℤ) + q.1) : ℕ) : ℤ) = (cx : ℤ) + q.1 :=
    u16_cast _ (by omega) (by omega)
  have hc2 : ((u16 ((cy : ℤ) + q.2) : ℕ) : ℤ) = (cy : ℤ) + q.2 :=
    u16_cast _ (by omega) (by omega)
  have hq1 : q.1 = a := by
    have := congrArg Prod.fst hqe
    simp only [] at this
    rw [hc1] at this
    omega
  have hq2 : q.2 = b := by
    have := congrArg Prod.snd hqe
    simp only [] at this
    rw [hc2] at this
    omega
  have hrot := circleLoopF_rot _ _ _ _ q hq
  rw [List.mem_map]
  refine ⟨(-q.2, q.1), hrot, ?_⟩
  simp only [Function.comp]
  have hd1 : ((u16 ((cx : ℤ) + -q.2) : ℕ) : ℤ) = (cx : ℤ) + -q.2 :=
    u16_cast _ (by omega) (by omega)
  have hd2 : ((u16 ((cy : ℤ) + q.1) : ℕ) : ℤ) = (cy : ℤ) + q.1 :=
    u16_cast _ (by omega) (by omega)
  rw [Prod.ext_iff]
  refine ⟨by rw [hd1]; omega, by rw [hd2]; omega⟩

/-- Concrete instance of `drawCircle_rotation`: on the circle of radius 2
centered at (5, 5), the plotted point (5+2, 5+0) rotates to the plotted
point (5-0, 5+2). -/
theorem drawCircle_rotation_witness :
    ((5 : ℤ) - 0, (5 : ℤ) + 2) ∈
      (tft_draw_circle_plots 5 5 2).map (fun p => ((p.1 : ℤ), (p.2 : ℤ))) :=
  drawCircle_rotation 5 5 2 (by decide) (by decide) (by decide) (by decide) 2 0
    (by decide)

theorem flatMap_map_comp {α β γ : Type} (l : List α) (f : α → β) (g : β → List γ) :
    (l.map f).flatMap g = l.flatMap fun a => g (f a) := by
  induction l with
  | nil => rfl
  | cons a l ih => simp only [List.map_cons, List.flatMap_cons, ih]

theorem flatMap_congr' {α β : Type} (l : List α) (f g : α → List β)
    (h : ∀ a ∈ l, f a = g a) : l.flatMap f = l.flatMap g := by
  induction l with
  | nil => rfl
  | cons a l ih =>
    simp only [List.flatMap_cons]
    rw [h a (by simp), ih fun b hb => h b (by simp [hb])]

theorem drawPixel_of_filter (l : List (ℕ × ℕ)) (c : ℕ) :
    (l.flatMap fun p => tft_draw_pixel p.1 p.2 c) =
      (l.filter fun p => decide (p.1 ≤ 239 ∧ p.2 ≤ 239)).flatMap
        fun p => tft_fill_rect p.1 p.2 1 1 c := by
  induction l with
  | nil => rfl
  | cons p l ih =>
    simp only [List.flatMap_cons, List.filter_cons]
    by_cases hp : p.1 ≤ 239 ∧ p.2 ≤ 239
    · rw [if_pos (by simpa using hp), List.flatMap_cons, ih]
      unfold tft_draw_pixel
      rw [if_neg (by omega)]
    · rw [if_neg (by simpa using hp), ih]
      unfold tft_draw_pixel
      rw [if_pos (by omega), List.nil_append]

/-- C10: a drawing coordinate computed as a (panel-scale) negative C `int`
converts to a `uint16_t` of at least 240, so `tft_draw_pixel` silently
emits nothing for it — in either coordinate position.  Consequently
`tft_draw_circle` with its center on the panel emits exactly the fills of
its truly in-bounds points (at their un-wrapped locations, never at a
wrapped-around one), and every fill emitted by `tft_draw_line` is at
coordinates below 240. -/
theorem drawPixel_wrap_clip :
    (∀ (v w : ℤ) (c : ℕ), -65296 ≤ v → v < 0 →
      240 ≤ u16 v ∧ tft_draw_pixel (u16 v) (u16 w) c = [] ∧
        tft_draw_pixel (u16 w) (u16 v) c = []) ∧
    (∀ cx cy r c : ℕ, cx ≤ 239 → cy ≤ 239 → r ≤ 65295 →
      tft_draw_circle cx cy r c =
        (tft_draw_circle_offsets r).flatMap fun q =>
          if 0 ≤ (cx : ℤ) + q.1 ∧ (cx : ℤ) + q.1 ≤ 239 ∧
              0 ≤ (cy : ℤ) + q.2 ∧ (cy : ℤ) + q.2 ≤ 239 then
            tft_fill_rect ((cx : ℤ) + q.1).toNat ((cy : ℤ) + q.2).toNat 1 1 c
          else []) ∧
    (∀ x0 y0 x1 y1 c : ℕ,
      tft_draw_line x0 y0 x1 y1 c =
        ((tft_draw_line_plots x0 y0 x1 y1).filter
            fun p => decide (p.1 ≤ 239 ∧ p.2 ≤ 239)).flatMap
          fun p => tft_fill_rect p.1 p.2 1 1 c) := by
  refine ⟨?_, ?_, ?_⟩
  · intro v w c h1 h2
    have hge : 240 ≤ u16 v := by unfold u16; omega
    exact ⟨hge, by unfold tft_draw_pixel; rw [if_pos (Or.inl hge)],
      by unfold tft_draw_pixel; rw [if_pos (Or.inr hge)]⟩
  · intro cx cy r c h1 h2 h3
    unfold tft_draw_circle tft_draw_circle_plots
    rw [flatMap_map_comp]
    apply flatMap_congr'
    intro q hq
    unfold tft_draw_circle_offsets at hq
    obtain ⟨hb1, hb2, hb3, hb4⟩ :=
      circleLoopF_bounds r _ _ _ _ q (le_refl 0) (le_refl (r : ℤ)) hq
    by_cases hin : 0 ≤ (cx : ℤ) + q.1 ∧ (cx : ℤ) + q.1 ≤ 239 ∧
        0 ≤ (cy : ℤ) + q.2 ∧ (cy : ℤ) + q.2 ≤ 239
    · rw [if_pos hin]
      unfold tft_draw_pixel
      have hcx : u16 ((cx : ℤ) + q.1) = ((cx : ℤ) + q.1).toNat := by
        unfold u16; omega
      have hcy : u16 ((cy : ℤ) + q.2) = ((cy : ℤ) + q.2).toNat := by
        unfold u16; omega
      rw [hcx, hcy, if_neg (by omega)]
    · rw [if_neg hin]
      unfold tft_draw_pixel
      rw [if_pos (show 240 ≤ u16 ((cx : ℤ) + q.1) ∨ 240 ≤ u16 ((cy : ℤ) + q.2) by
        unfold u16; omega)]
  · intro x0 y0 x1 y1 c
    unfold tft_draw_line
    exact drawPixel_of_filter _ c

/-- Concrete instance of `drawPixel_wrap_clip`: the coordinate `-5` wraps to
65531 ≥ 240 and is clipped, and the radius-3 circle centered at (1, 1) —
partially past the top and left edges — emits exactly its in-bounds fills. -/
theorem drawPixel_wrap_clip_witness :
    (240 ≤ u16 (-5) ∧ tft_draw_pixel (u16 (-5)) (u16 3) 9 = [] ∧
      tft_draw_pixel (u16 3) (u16 (-5)) 9 = []) ∧
    tft_draw_circle 1 1 3 9 =
      (tft_draw_circle_offsets 3).flatMap fun q =>
        if 0 ≤ ((1 : ℕ) : ℤ) + q.1 ∧ ((1 : ℕ) : ℤ) + q.1 ≤ 239 ∧
            0 ≤ ((1 : ℕ) : ℤ) + q.2 ∧ ((1 : ℕ) : ℤ) + q.2 ≤ 239 then
          tft_fill_rect (((1 : ℕ) : ℤ) + q.1).toNat (((1 : ℕ) : ℤ) + q.2).toNat 1 1 9
        else [] :=
  ⟨drawPixel_wrap_clip.1 (-5) 3 9 (by decide) (by decide),
   drawPixel_wrap_clip.2.1 1 1 3 9 (by decide) (by decide) (by decide)⟩

/-- Truncation of a C `double` value to `int` (toward zero), as in
`int x = cx + (radius - t) * cos(rad);`. -/
def ratTrunc (q : ℚ) : ℤ := if q < 0 then ⌈q⌉ else ⌊q⌋

/-- Iteration count of `for (float angle = s; angle <= e; angle += 2)`:
angles `s, s+2, ...` while `≤ e`.  Angles are modelled in `ℚ`: the degree
literals used by the sketches and the `+= 2` accumulation are exact in
`float` at these magnitudes. -/
def arcSteps (s e : ℚ) : ℕ := if e < s then 0 else (⌊(e - s) / 2⌋ + 1).toNat

/-- The angles visited by the arc loop. -/
def arcAngles (s e : ℚ) : List ℚ := (List.range (arcSteps s e)).map fun k => s + 2 * k

/-- The loop body of `drawArc` (smooth-gauge sketch) after the wrap
normalization: for each `t` in `0 ≤ t < thickness`, step the angle from
`s` to `e` in 2-degree increments and plot
`(cx + (radius-t)·cos, cy + (radius-t)·sin)` truncated to `int`.
The trigonometric evaluations `cos(angle*PI/180)` / `sin(angle*PI/180)` on
C `double`s are abstracted as the function parameters `cosD`/`sinD`
(indexed by the angle in degrees); the theorems below hold for every such
interpretation, in particular for the actual floating-point one. -/
def drawArcRaw (cosD sinD : ℚ → ℚ) (cx cy radius : ℤ) (s e : ℚ)
    (thickness : ℕ) : List (ℤ × ℤ) :=
  (List.range thickness).flatMap fun t =>
    (arcAngles s e).map fun ang =>
      (ratTrunc ((cx : ℚ) + ((radius - t : ℤ) : ℚ) * cosD ang),
       ratTrunc ((cy : ℚ) + ((radius - t : ℤ) : ℚ) * sinD ang))

/-- `drawArc(cx, cy, radius, startAngle, endAngle, color, thickness)`:
`if (endAngle < startAngle) endAngle += 360;` then the loop. -/
def drawArc (cosD sinD : ℚ → ℚ) (cx cy radius : ℤ) (startAngle endAngle : ℚ)
    (thickness : ℕ) : List (ℤ × ℤ) :=
  drawArcRaw cosD sinD cx cy radius startAngle
    (if endAngle < startAngle then endAngle + 360 else endAngle) thickness

/-- C7: for every trig interpretation, center, radius and thickness,
`drawArc` from 350° to 10° plots exactly the same pixel list as `drawArc`
from 350° to 370°; and in general, whenever `endAngle < startAngle` the arc
is drawn exactly as if `endAngle` were increased by 360°. -/
theorem drawArc_wrap (cosD sinD : ℚ → ℚ) (cx cy radius : ℤ) (thickness : ℕ) :
    (drawArc cosD sinD cx cy radius 350 10 thickness =
      drawArc cosD sinD cx cy radius 350 370 thickness) ∧
    (∀ s e : ℚ, e < s →
      drawArc cosD sinD cx cy radius s e thickness =
        drawArcRaw cosD sinD cx cy radius s (e + 360) thickness) := by
  constructor
  · unfold drawArc
    norm_num
  · intro s e h
    unfold drawArc
    rw [if_pos h]

/-- Concrete instance of `drawArc_wrap` with the zero trig interpretation
at `endAngle = 10 < 350 = startAngle`. -/
theorem drawArc_wrap_witness :
    drawArc (fun _ => 0) (fun _ => 0) 0 0 5 350 10 1 =
      drawArcRaw (fun _ => 0) (fun _ => 0) 0 0 5 350 (10 + 360) 1 :=
  (drawArc_wrap (fun _ => 0) (fun _ => 0) 0 0 5 1).2 350 10 (by norm_num)

/-- The 5x7 digit font of DigitalMeters.ino. -/
def font5x7 : List (List ℕ) :=
  [[0x3E, 0x51, 0x49, 0x45, 0x3E],
   [0x00, 0x42, 0x7F, 0x40, 0x00],
   [0x42, 0x61, 0x51, 0x49, 0x46],
   [0x21, 0x41, 0x45, 0x4B, 0x31],
   [0x18, 0x14, 0x12, 0x7F, 0x10],
   [0x27, 0x45, 0x45, 0x45, 0x39],
   [0x3C, 0x4A, 0x49, 0x49, 0x30],
   [0x01, 0x71, 0x09, 0x05, 0x03],
   [0x36, 0x49, 0x49, 0x49, 0x36],
   [0x06, 0x49, 0x49, 0x29, 0x1E]]

/-- `font5x7[digit][col]`. -/
def fontLine (d col : ℕ) : ℕ := (font5x7.getD d []).getD col 0

/-- `tft_draw_digit(x, y, digit, color, size)`: one scaled `fillRect` per
set bit of the glyph columns; digits above 9 draw nothing. -/
def tft_draw_digit (x y d color size : ℕ) : List Bus :=
  if 9 < d then []
  else
    (List.range 5).flatMap fun col =>
      (List.range 7).flatMap fun row =>
        if (fontLine d col >>> row) % 2 = 1 then
          tft_fill_rect (x + col * size) (y + row * size) size size color
        else []

/-- The character loop of `tft_draw_number` over the already-formatted
buffer (the `sprintf("%.*f", ...)` float formatting itself is outside the
embedding): digits and the decimal point render and advance `pos`; every
other character is passed over. -/
def drawNumberChars (x y color size : ℕ) : List Char → ℕ → List Bus
  | [], _ => []
  | ch :: rest, pos =>
    if '0' ≤ ch ∧ ch ≤ '9' then
      tft_draw_digit (x + pos * 6 * size) y (ch.toNat - 48) color size ++
        drawNumberChars x y color size rest (pos + 1)
    else if ch = '.' then
      tft_fill_rect (x + pos * 6 * size) (y + 6 * size) size size color ++
        drawNumberChars x y color size rest (pos + 1)
    else drawNumberChars x y color size rest pos

/-- The character loop of `tft_draw_string`: uppercase letters render a
block and advance `pos`, spaces advance `pos`, everything else is passed
over. -/
def drawStringChars (x y color size : ℕ) : List Char → ℕ → List Bus
  | [], _ => []
  | ch :: rest, pos =>
    if 'A' ≤ ch ∧ ch ≤ 'Z' then
      tft_fill_rect (x + pos * 6 * size) y (4 * size) (7 * size) color ++
        drawStringChars x y color size rest (pos + 1)
    else if ch = ' ' then drawStringChars x y color size rest (pos + 1)
    else drawStringChars x y color size rest pos

/-- `tft_draw_string(x, y, str, color, size)`. -/
def tft_draw_string (x y : ℕ) (s : List Char) (color size : ℕ) : List Bus :=
  drawStringChars x y color size s 0

/-- The rendering part of `tft_draw_number(x, y, number, decimals, color,
size)`, applied to the formatted buffer. -/
def tft_draw_number_chars (x y : ℕ) (s : List Char) (color size : ℕ) : List Bus :=
  drawNumberChars x y color size s 0

/-- The glyph set supported by the renderers (spec §6): digits, the decimal
point, uppercase letters, and space. -/
def supportedGlyph (ch : Char) : Bool :=
  decide (('0' ≤ ch ∧ ch ≤ '9') ∨ ch = '.' ∨ ('A' ≤ ch ∧ ch ≤ 'Z') ∨ ch = ' ')

theorem drawChars_filter (x y color size : ℕ) (s : List Char) :
    (∀ pos, drawStringChars x y color size s pos =
      drawStringChars x y color size (s.filter supportedGlyph) pos) ∧
    (∀ pos, drawNumberChars x y color size s pos =
      drawNumberChars x y color size (s.filter supportedGlyph) pos) := by
  induction s with
  | nil => exact ⟨fun _ => rfl, fun _ => rfl⟩
  | cons ch rest ih =>
    by_cases hsup : supportedGlyph ch = true
    · rw [List.filter_cons]
      constructor <;> intro pos <;> rw [if_pos hsup]
      · by_cases h1 : 'A' ≤ ch ∧ ch ≤ 'Z'
        · simp only [drawStringChars, if_pos h1]
          rw [ih.1]
        · by_cases h2 : ch = ' '
          · simp only [drawStringChars, if_neg h1, if_pos h2]
            exact ih.1 _
          · simp only [drawStringChars, if_neg h1, if_neg h2]
            exact ih.1 _
      · by_cases h1 : '0' ≤ ch ∧ ch ≤ '9'
        · simp only [drawNumberChars, if_pos h1]
          rw [ih.2]
        · by_cases h2 : ch = '.'
          · simp only [drawNumberChars, if_neg h1, if_pos h2]
            rw [ih.2]
          · simp only [drawNumberChars, if_neg h1, if_neg h2]
            exact ih.2 _
    · have hprop : ¬ (('0' ≤ ch ∧ ch ≤ '9') ∨ ch = '.' ∨ ('A' ≤ ch ∧ ch ≤ 'Z') ∨ ch = ' ') := by
        intro hc
        exact hsup (by simp [supportedGlyph, hc])
      have hd : ¬ ('0' ≤ ch ∧ ch ≤ '9') := fun hc => hprop (Or.inl hc)
      have hdot : ch ≠ '.' := fun hc => hprop (Or.inr (Or.inl hc))
      have hu : ¬ ('A' ≤ ch ∧ ch ≤ 'Z') := fun hc => hprop (Or.inr (Or.inr (Or.inl hc)))
      have hsp : ch ≠ ' ' := fun hc => hprop (Or.inr (Or.inr (Or.inr hc)))
      rw [List.filter_cons, if_neg hsup]
      constructor <;> intro pos
      · simp only [drawStringChars, if_neg hu, if_neg hsp]
        exact ih.1 pos
      · simp only [drawNumberChars, if_neg hd, if_neg hdot]
        exact ih.2 pos

/-- C8: characters outside the supported glyph set contribute no bus writes
to either renderer — the trace of any input equals the trace of the input
with unsupported characters removed; the loop simply moves on to the next
character, and (being a total function) never faults. -/
theorem glyph_skip_spec (x y color size : ℕ) (s : List Char) :
    tft_draw_string x y s color size =
      tft_draw_string x y (s.filter supportedGlyph) color size ∧
    tft_draw_number_chars x y s color size =
      tft_draw_number_chars x y (s.filter supportedGlyph) color size :=
  ⟨(drawChars_filter x y color size s).1 0, (drawChars_filter x y color size s).2 0⟩

/-- A command byte followed by its payload data bytes, as the init
sequences emit them. -/
def cmdSeq (c : ℕ) (ds : List ℕ) : List Bus :=
  tft_send_cmd c ++ ds.flatMap tft_send_data

/-- The bus trace emitted by `tft_init()` in HelloWorld.ino (reset pin not
connected): the stabilization delay, a raw NOP byte transferred with DC
still low (hence a command byte on the bus), the full vendor register
sequence, then sleep-out (0x11) + 120 ms and display-on (0x29) + 20 ms. -/
def tft_initTrace : List Bus :=
  [Bus.delayMs 200] ++
  [Bus.cmd 0x00] ++
  cmdSeq 0xEF [] ++
  cmdSeq 0xEB [0x14] ++
  cmdSeq 0xFE [] ++
  cmdSeq 0xEF [] ++
  cmdSeq 0xEB [0x14] ++
  cmdSeq 0x84 [0x40] ++
  cmdSeq 0x85 [0xFF] ++
  cmdSeq 0x86 [0xFF] ++
  cmdSeq 0x87 [0xFF] ++
  cmdSeq 0x88 [0x0A] ++
  cmdSeq 0x89 [0x21] ++
  cmdSeq 0x8A [0x00] ++
  cmdSeq 0x8B [0x80] ++
  cmdSeq 0x8C [0x01] ++
  cmdSeq 0x8D [0x01] ++
  cmdSeq 0x8E [0xFF] ++
  cmdSeq 0x8F [0xFF] ++
  cmdSeq 0xB6 [0x00, 0x20] ++
  cmdSeq 0x36 [0x08] ++
  cmdSeq 0x3A [0x05] ++
  cmdSeq 0x90 [0x08, 0x08, 0x08, 0x08] ++
  cmdSeq 0xBD [0x06] ++
  cmdSeq 0xBC [0x00] ++
  cmdSeq 0xFF [0x60, 0x01, 0x04] ++
  cmdSeq 0xC3 [0x13] ++
  cmdSeq 0xC4 [0x13] ++
  cmdSeq 0xC9 [0x22] ++
  cmdSeq 0xBE [0x11] ++
  cmdSeq 0xE1 [0x10, 0x0E] ++
  cmdSeq 0xDF [0x21, 0x0C, 0x02] ++
  cmdSeq 0xF0 [0x45, 0x09, 0x08, 0x08, 0x26, 0x2A] ++
  cmdSeq 0xF1 [0x43, 0x70, 0x72, 0x36, 0x37, 0x6F] ++
  cmdSeq 0xF2 [0x45, 0x09, 0x08, 0x08, 0x26, 0x2A] ++
  cmdSeq 0xF3 [0x43, 0x70, 0x72, 0x36, 0x37, 0x6F] ++
  cmdSeq 0xED [0x1B, 0x0B] ++
  cmdSeq 0xAE [0x77] ++
  cmdSeq 0xCD [0x63] ++
  cmdSeq 0x70 [0x07, 0x07, 0x04, 0x0E, 0x0F, 0x09, 0x07, 0x08, 0x03] ++
  cmdSeq 0xE8 [0x34] ++
  cmdSeq 0x62 [0x18, 0x0D, 0x71, 0xED, 0x70, 0x70, 0x18, 0x0F, 0x71, 0xEF, 0x70, 0x70] ++
  cmdSeq 0x63 [0x18, 0x11, 0x71, 0xF1, 0x70, 0x70, 0x18, 0x13, 0x71, 0xF3, 0x70, 0x70] ++
  cmdSeq 0x64 [0x28, 0x29, 0xF1, 0x01, 0xF1, 0x00, 0x07] ++
  cmdSeq 0x66 [0x3C, 0x00, 0xCD, 0x67, 0x45, 0x45, 0x10, 0x00, 0x00, 0x00] ++
  cmdSeq 0x67 [0x00, 0x3C, 0x00, 0x00, 0x00, 0x01, 0x54, 0x10, 0x32, 0x98] ++
  cmdSeq 0x74 [0x10, 0x85, 0x80, 0x00, 0x00, 0x4E, 0x00] ++
  cmdSeq 0x98 [0x3E, 0x07] ++
  cmdSeq 0x35 [] ++
  cmdSeq 0x21 [] ++
  cmdSeq 0x11 [] ++
  [Bus.delayMs 120] ++
  cmdSeq 0x29 [] ++
  [Bus.delayMs 20]

/-- `delayAtLeast m b` holds when `b` is a `delay(d)` event with `d ≥ m`. -/
def delayAtLeast (m : ℕ) : Bus → Bool
  | Bus.delayMs d => decide (m ≤ d)
  | _ => false

/-- Every occurrence of command byte `c` in the trace is immediately
followed by a delay of at least `m` milliseconds (so no further bus event,
in particular no command, intervenes before that delay). -/
def cmdFollowedByDelay (c m : ℕ) (tr : List Bus) : Prop :=
  ∀ p ∈ tr.zip tr.tail, p.1 = Bus.cmd c → delayAtLeast m p.2 = true

set_option maxRecDepth 8000

/-- C9: in both controller-initialization traces of this repository
(`initDisplay()` of DigitalMeters.ino and `tft_init()` of HelloWorld.ino),
sleep-out (0x11) occurs and is immediately followed by a delay of at least
120 ms, display-on (0x29) occurs and is immediately followed by a delay of
at least 20 ms, and 0x11 precedes 0x29. -/
theorem init_delays_spec :
    (Bus.cmd 0x11 ∈ initDisplayTrace ∧ Bus.cmd 0x29 ∈ initDisplayTrace ∧
      cmdFollowedByDelay 0x11 120 initDisplayTrace ∧
      cmdFollowedByDelay 0x29 20 initDisplayTrace ∧
      initDisplayTrace.indexOf (Bus.cmd 0x11) <
        initDisplayTrace.indexOf (Bus.cmd 0x29)) ∧
    (Bus.cmd 0x11 ∈ tft_initTrace ∧ Bus.cmd 0x29 ∈ tft_initTrace ∧
      cmdFollowedByDelay 0x11 120 tft_initTrace ∧
      cmdFollowedByDelay 0x29 20 tft_initTrace ∧
      tft_initTrace.indexOf (Bus.cmd 0x11) <
        tft_initTrace.indexOf (Bus.cmd 0x29)) := by
  unfold cmdFollowedByDelay
  constructor
  · exact ⟨by decide, by decide, by decide, by decide, by decide⟩
  · exact ⟨by decide, by decide, by decide, by decide, by decide⟩
